import Mathlib

/-!
Shallow embedding of the yajp JSON parser (src/python/yajp.py).

The input string is modelled as a `List Nat` of Unicode code points (Python
`str` is a sequence of code points, including unpaired surrogates, so `Char`
is not faithful here).  The cursor `(s, idx)` is modelled by the list of
characters from `idx` on; the substring `s[start:idx]` consumed by the number
and hex scanners is modelled by an explicit accumulator of consumed
characters.  Every `raise` site of the Python code becomes an error
constructor; Python `ValueError` escaping from `int(...)`/`float(...)` and
`RecursionError` from exhausting the call stack are separate constructors,
distinct from `JSONParserError`.  The mutually recursive parse loops take a
fuel parameter decremented once per loop iteration or nested call; exhausted
fuel models Python's bounded call stack (`RecursionError`).
-/

set_option linter.unusedVariables false

/-- Exceptions the Python code can raise.  All constructors except
`valueError` and `recursionError` model `JSONParserError` raise sites
(distinguished by their message text). -/
inductive PyErr where
  /-- `JSONParserError(f"Unexpected character: {val}")` -/
  | unexpectedChar (c : Nat)
  /-- `JSONParserError(f"Unexpected EOF at index {idx}")` -/
  | unexpectedEOF
  /-- `JSONParserError(f"Expected }}, found {peek}")` raised when the object
  loop runs out of input -/
  | unterminatedObject
  /-- `JSONParserError(f"Expected ], found {peek}")` raised when the array
  loop runs out of input -/
  | unterminatedArray
  /-- `JSONParserError(f"Invalid unicode escape at index {idx}")` -/
  | invalidUnicodeEscape
  /-- `JSONParserError(f"Invalid escape at index {idx}")` -/
  | invalidEscape
  /-- `JSONParserError(f"Invalid character at index {idx}")` -/
  | invalidChar
  /-- `JSONParserError(f"Invalid state: {fraction, exponent}")` -/
  | invalidState
  /-- `JSONParserError(f"Found {peek}, expected {target}")` -/
  | literalMismatch (found : Option Nat)
  /-- `JSONParserError(f"Found {peek}, expected whitespace")` -/
  | literalBadEnd (c : Nat)
  /-- Python `ValueError` escaping from `int(...)` or `float(...)`;
  NOT a `JSONParserError`. -/
  | valueError
  /-- Python `RecursionError` from exhausting the call stack on deep input;
  NOT a `JSONParserError`.  Modelled by fuel exhaustion. -/
  | recursionError
  /-- models the infinite loop the `parse_number` while-body falls into when
  no branch applies (no character consumed, no break); unreachable from the
  initial scanner state. -/
  | numStuck
deriving DecidableEq

/-- Whether the raised exception is an instance of the parser's own
`JSONParserError` class (as opposed to a builtin `ValueError` /
`RecursionError`). -/
def PyErr.isParserError : PyErr → Bool
  | .valueError => false
  | .recursionError => false
  | _ => true

/-- The value tree produced by the parser.  Python's dynamic result type
(`str | int | float | bool | None | list | dict`) as a tagged variant.
`str` payloads are lists of code points (Python strings may hold lone
surrogates, which `Char` cannot).  A `float` carries the exact literal
substring handed to Python's `float(...)`; two parses yield equal floats
whenever they hand over the same substring, which is the only way floats are
compared in this development. -/
inductive JSONValue where
  | null
  | bool (b : Bool)
  | int (n : Int)
  | float (lit : List Nat)
  | str (codes : List Nat)
  | arr (elems : List JSONValue)
  | obj (entries : List (List Nat × JSONValue))

/-- `c in " \t\n\r"` -/
def isWsChar (c : Nat) : Bool := c = 32 || c = 9 || c = 10 || c = 13

/-- `c in "0123456789"` -/
def isDigitChar (c : Nat) : Bool := 48 ≤ c && c ≤ 57

/-- `c in "0123456789abcdefABCDEF"` -/
def isHexChar (c : Nat) : Bool :=
  isDigitChar c || (97 ≤ c && c ≤ 102) || (65 ≤ c && c ≤ 70)

/-- `c in "-0123456789"`, the dispatch set for numbers -/
def isNumStart (c : Nat) : Bool := c = 45 || isDigitChar c

/-- `is_valid_literal_ending`: `c is None or is_ws(c) or c in ",]}"`
(the `None` case is handled at the call site). -/
def isValidLiteralEnding (c : Nat) : Bool :=
  isWsChar c || c = 44 || c = 93 || c = 125

/-- Code points of a Lean string literal, for readable concrete inputs. -/
def toCodes (s : String) : List Nat := s.data.map Char.toNat

/-- Numeric value of a list of decimal digit characters. -/
def decNat (l : List Nat) : Nat := l.foldl (fun acc c => acc * 10 + (c - 48)) 0

/-- Numeric value of a list of hex digit characters. -/
def hexDigitVal (c : Nat) : Nat :=
  if isDigitChar c then c - 48 else if 97 ≤ c then c - 87 else c - 55

/-- Numeric value of a list of hex digit characters. -/
def hexNat (l : List Nat) : Nat := l.foldl (fun acc c => acc * 16 + hexDigitVal c) 0

/-- Models Python `int(s)` on the character material the number scanner can
hand it (an optional leading `-` followed by decimal digits): `none` is a
`ValueError`.  `int("")` and `int("-")` are `ValueError`. -/
def pyIntDec : List Nat → Option Int
  | [] => none
  | 45 :: rest =>
      if rest ≠ [] && rest.all isDigitChar then some (-(decNat rest : Int)) else none
  | l => if l.all isDigitChar then some (decNat l : Int) else none

/-- Models Python `int(s, 16)` on the character material the hex scanner can
hand it (hex digits only): `none` is a `ValueError`; `int("", 16)` is a
`ValueError`. -/
def pyIntHex (l : List Nat) : Option Nat :=
  if l ≠ [] && l.all isHexChar then some (hexNat l) else none

/-- One optional leading sign, as Python's float literal grammar allows. -/
def stripSignF : List Nat → List Nat
  | [] => []
  | c :: rest => if c = 43 || c = 45 then rest else c :: rest

/-- Exponent digits of Python's float grammar: optional sign then at least
one digit and nothing else. -/
def expTail (l : List Nat) : Bool :=
  let l' := stripSignF l
  !(l'.takeWhile isDigitChar).isEmpty && (l'.dropWhile isDigitChar).isEmpty

/-- Optional exponent part of Python's float grammar. -/
def expPart : List Nat → Bool
  | [] => true
  | c :: rest => (c = 101 || c = 69) && expTail rest

/-- Models acceptance by Python `float(s)` on the character material the
number scanner can hand it (signs, digits, `.`, `e`/`E`):
`[sign] (digits [. digits*] | . digits) [e/E [sign] digits]`.
In particular `float("1.")` succeeds while `float("1e")`, `float("-")` and
`float("1e+")` are `ValueError`. -/
def pyFloatAccepts (l : List Nat) : Bool :=
  let l1 := stripSignF l
  let d1 := l1.takeWhile isDigitChar
  let r1 := l1.dropWhile isDigitChar
  match r1 with
  | [] => !d1.isEmpty
  | c :: r2 =>
    if c = 46 then
      let d2 := r2.takeWhile isDigitChar
      let r3 := r2.dropWhile isDigitChar
      if d1.isEmpty && d2.isEmpty then false else expPart r3
    else if c = 101 || c = 69 then
      if d1.isEmpty then false else expTail r2
    else false

/-- Python dict assignment `obj[key] = v` on an association list: if the key
is present, overwrite its value in place (iteration order keeps the key's
original position); otherwise append the pair at the end. -/
def objInsert : List (List Nat × JSONValue) → List Nat → JSONValue →
    List (List Nat × JSONValue)
  | [], k, v => [(k, v)]
  | (k', v') :: rest, k, v =>
      if k' = k then (k', v) :: rest else (k', v') :: objInsert rest k v

/-- First-match lookup in an association list (Python dict read). -/
def lookupKey : List (List Nat × JSONValue) → List Nat → Option JSONValue
  | [], _ => none
  | (k', v') :: rest, k => if k' = k then some v' else lookupKey rest k

/-- Lines 174–177 of `parse_string`: append the code unit produced by a
`\uXXXX` escape to the accumulated characters, combining it with a trailing
high surrogate when it is a low surrogate. -/
def appendCU (s : List Nat) (code : Nat) : List Nat :=
  match s.getLast? with
  | some h =>
      if 0xD800 ≤ h ∧ h ≤ 0xDBFF ∧ 0xDC00 ≤ code ∧ code ≤ 0xDFFF then
        s.dropLast ++ [(h - 0xD800) * 0x400 + (code - 0xDC00) + 0x10000]
      else s ++ [code]
  | none => s ++ [code]

/-- `parse_hex(n)` scanning loop: consume up to `n` characters, failing on a
non-hex character; after the loop fail unless exactly `n` were consumed, then
return `int(consumed, 16)`.  The declared Python return type is
`Union[int, None]`, hence the `Option Nat` in the result. -/
def hexGo : Nat → List Nat → List Nat → Except PyErr (Option Nat × List Nat)
  | 0, l, acc =>
      match pyIntHex acc with
      | some v => .ok (some v, l)
      | none => .error .valueError
  | _ + 1, [], _ => .error .unexpectedEOF
  | n + 1, c :: rest, acc =>
      if isHexChar c then hexGo n rest (acc ++ [c])
      else .error (.unexpectedChar c)

/-- `parse_hex(n)` -/
def parseHex (n : Nat) (l : List Nat) : Except PyErr (Option Nat × List Nat) :=
  hexGo n l []

/-- `parse_literal(target, value)`: consume the target's characters one at a
time, then require a valid literal ending (`None`, whitespace, `,`, `]`, `}`)
at the following character. -/
def parseLiteral : List Nat → JSONValue → List Nat → Except PyErr (JSONValue × List Nat)
  | [], v, [] => .ok (v, [])
  | [], v, c :: r =>
      if isValidLiteralEnding c then .ok (v, c :: r) else .error (.literalBadEnd c)
  | _ :: _, _, [] => .error (.literalMismatch none)
  | t :: ts, v, c :: r =>
      if c = t then parseLiteral ts v r else .error (.literalMismatch (some c))

/-- The local state of `parse_number`'s scanning loop.  `acc` models the
consumed substring `s[start:self.idx]`; `acc.length` stands for
`self.idx - start`.  The Python locals `start_fraction`/`start_exponent` hold
either `False` or the index of the first fraction/exponent digit, which is
always positive when set, so they are faithfully Booleans here. -/
structure NumSt where
  sf : Bool := false
  se : Bool := false
  num : Bool := false
  fr : Bool := false
  ex : Bool := false
  zero : Bool := false
  sgn : Bool := false
  sgnE : Bool := false
  acc : List Nat := []

/-- Loop exit of `parse_number`: `float(s[start:idx])` if a fraction or
exponent was seen, else `int(s[start:idx])`; Python `ValueError` if the
substring is not a valid literal. -/
def numFinish (st : NumSt) (l : List Nat) : Except PyErr (JSONValue × List Nat) :=
  if st.fr || st.ex then
    if pyFloatAccepts st.acc then .ok (.float st.acc, l) else .error .valueError
  else
    match pyIntDec st.acc with
    | some n => .ok (.int n, l)
    | none => .error .valueError

/-- The `while` loop of `parse_number`, branch for branch.  A `break`
becomes `numFinish st` on the unconsumed remainder. -/
def goNum (st : NumSt) : List Nat → Except PyErr (JSONValue × List Nat)
  | [] => numFinish st []
  | c :: rest =>
    if c = 46 then
      if st.fr || st.ex || (st.sgn && !(st.num || st.zero)) then .error .invalidState
      else goNum { st with fr := true, acc := st.acc ++ [c] } rest
    else if c = 101 || c = 69 then
      if st.ex || (st.fr && !st.sf) then .error .invalidState
      else goNum { st with ex := true, fr := false, acc := st.acc ++ [c] } rest
    else if st.fr then
      if isDigitChar c then goNum { st with sf := true, acc := st.acc ++ [c] } rest
      else if !st.sf then .error (.unexpectedChar c)
      else numFinish st (c :: rest)
    else if st.ex then
      if !st.sgnE && !st.se && (c = 45 || c = 43) then
        goNum { st with sgnE := true, acc := st.acc ++ [c] } rest
      else if isDigitChar c then goNum { st with se := true, acc := st.acc ++ [c] } rest
      else if !st.se then .error (.unexpectedChar c)
      else numFinish st (c :: rest)
    else
      if st.acc.isEmpty then
        if c = 45 then goNum { st with sgn := true, acc := st.acc ++ [c] } rest
        else if c = 48 then goNum { st with zero := true, acc := st.acc ++ [c] } rest
        else if 49 ≤ c && c ≤ 57 then goNum { st with num := true, acc := st.acc ++ [c] } rest
        else .error (.unexpectedChar c)
      else if st.acc.length = 1 && st.sgn then
        if c = 48 then goNum { st with zero := true, acc := st.acc ++ [c] } rest
        else if 49 ≤ c && c ≤ 57 then goNum { st with num := true, acc := st.acc ++ [c] } rest
        else numFinish st (c :: rest)
      else if st.zero then
        if isDigitChar c then .error (.unexpectedChar c)
        else numFinish st (c :: rest)
      else if st.num then
        if isDigitChar c then goNum { st with acc := st.acc ++ [c] } rest
        else numFinish st (c :: rest)
      else .error .numStuck

/-- `parse_number()`, entered with the scan position on the first character
of the literal. -/
def parseNumber (l : List Nat) : Except PyErr (JSONValue × List Nat) :=
  goNum {} l

/-- The `while` loop of `parse_string` after the unconditional opening
`consume()`; `acc` is the accumulated character list `s`.  `none` is fuel
exhaustion. -/
def goStr : Nat → List Nat → List Nat → Option (Except PyErr (List Nat × List Nat))
  | 0, _, _ => none
  | _ + 1, [], _ => some (.error .invalidChar)
  | f + 1, c :: rest, acc =>
    if c = 34 then some (.ok (acc, rest))
    else if c = 92 then
      match rest with
      | [] => some (.error .unexpectedEOF)
      | e :: r2 =>
        if e = 34 then goStr f r2 (acc ++ [34])
        else if e = 92 then goStr f r2 (acc ++ [92])
        else if e = 47 then goStr f r2 (acc ++ [47])
        else if e = 98 then goStr f r2 (acc ++ [8])
        else if e = 102 then goStr f r2 (acc ++ [12])
        else if e = 110 then goStr f r2 (acc ++ [10])
        else if e = 114 then goStr f r2 (acc ++ [13])
        else if e = 116 then goStr f r2 (acc ++ [9])
        else if e = 117 then
          match parseHex 4 r2 with
          | .error err => some (.error err)
          | .ok (code?, r3) =>
            match code? with
            | none => some (.error .invalidUnicodeEscape)
            | some code => goStr f r3 (appendCU acc code)
        else some (.error .invalidEscape)
    else if c < 0x20 then some (.error .invalidChar)
    else goStr f rest (acc ++ [c])
termination_by structural f _ _ => f

/-- `parse_string()`: the first `consume()` is unconditional (it eats
whatever character the scan position is on, quote or not), raising
`UnexpectedEOF` on empty input. -/
def parseString (f : Nat) (l : List Nat) : Option (Except PyErr (List Nat × List Nat)) :=
  match l with
  | [] => some (.error .unexpectedEOF)
  | _ :: rest => goStr f rest []

/-- Python conflation: `parse_element` returns `None` both for the `null`
literal and when it never assigned a value; wherever the caller stores the
result, the two are the same Python object `None`. -/
def optToVal (o : Option JSONValue) : JSONValue := o.getD .null

mutual

/-- The `while` loop of `parse_element(root)` together with the two root
checks after it.  `o`/`a` are the locals `obj`/`assigned`; the loop `break`
happens when `a` is set and a non-whitespace character is seen.  `none` is
fuel exhaustion. -/
def peGo : Nat → Bool → List Nat → Option JSONValue → Bool →
    Option (Except PyErr (Option JSONValue × List Nat))
  | 0, _, _, _, _ => none
  | _ + 1, root, [], o, a =>
      if root && o.isNone && !a then some (.error .unexpectedEOF)
      else some (.ok (o, []))
  | f + 1, root, c :: rest, o, a =>
    if isWsChar c then peGo f root rest o a
    else if a then
      if root then some (.error (.unexpectedChar c)) else some (.ok (o, c :: rest))
    else if c = 123 then
      match goObj f rest [] [] true false false with
      | none => none
      | some (.error e) => some (.error e)
      | some (.ok (m, r)) => peGo f root r (some (.obj m)) true
    else if c = 91 then
      match goArr f rest [] true with
      | none => none
      | some (.error e) => some (.error e)
      | some (.ok (es, r)) => peGo f root r (some (.arr es)) true
    else if c = 34 then
      match parseString f (c :: rest) with
      | none => none
      | some (.error e) => some (.error e)
      | some (.ok (s, r)) => peGo f root r (some (.str s)) true
    else if isNumStart c then
      match parseNumber (c :: rest) with
      | .error e => some (.error e)
      | .ok (v, r) => peGo f root r (some v) true
    else if c = 116 then
      match parseLiteral (toCodes "true") (.bool true) (c :: rest) with
      | .error e => some (.error e)
      | .ok (v, r) => peGo f root r (some v) true
    else if c = 102 then
      match parseLiteral (toCodes "false") (.bool false) (c :: rest) with
      | .error e => some (.error e)
      | .ok (v, r) => peGo f root r (some v) true
    else if c = 110 then
      match parseLiteral (toCodes "null") .null (c :: rest) with
      | .error e => some (.error e)
      | .ok (v, r) => peGo f root r (some v) true
    else some (.error (.unexpectedChar c))
termination_by structural f _ _ _ _ => f

/-- The `while` loop of `parse_object` after the opening `consume()`.
`m` is the dict under construction; `key` is the Python local `key`
(initialised arbitrarily; it is only read after a key has been parsed);
`ek`/`ec`/`eo` are `expects_key`/`expects_colon`/`expects_object`. -/
def goObj : Nat → List Nat → List (List Nat × JSONValue) → List Nat →
    Bool → Bool → Bool →
    Option (Except PyErr (List (List Nat × JSONValue) × List Nat))
  | 0, _, _, _, _, _, _ => none
  | _ + 1, [], _, _, _, _, _ => some (.error .unterminatedObject)
  | f + 1, c :: rest, m, key, ek, ec, eo =>
    if isWsChar c then goObj f rest m key ek ec eo
    else if (m.isEmpty || !ek) && !eo && !ec && c = 125 then some (.ok (m, rest))
    else if ek then
      match parseString f (c :: rest) with
      | none => none
      | some (.error e) => some (.error e)
      | some (.ok (k, r)) => goObj f r m k false true eo
    else if ec && c = 58 then goObj f rest m key ek false true
    else if eo then
      match peGo f false (c :: rest) none false with
      | none => none
      | some (.error e) => some (.error e)
      | some (.ok (el, r)) => goObj f r (objInsert m key (optToVal el)) key ek ec false
    else if c = 44 then goObj f rest m key true ec eo
    else some (.error (.unexpectedChar c))
termination_by structural f _ _ _ _ _ _ => f

/-- The `while` loop of `parse_array` after the opening `consume()`;
`es` is the list under construction, `ee` is `expects_element`. -/
def goArr : Nat → List Nat → List JSONValue → Bool →
    Option (Except PyErr (List JSONValue × List Nat))
  | 0, _, _, _ => none
  | _ + 1, [], _, _ => some (.error .unterminatedArray)
  | f + 1, c :: rest, es, ee =>
    if isWsChar c then goArr f rest es ee
    else if (es.isEmpty || !ee) && c = 93 then some (.ok (es, rest))
    else if ee then
      match peGo f false (c :: rest) none false with
      | none => none
      | some (.error e) => some (.error e)
      | some (.ok (el, r)) => goArr f r (es ++ [optToVal el]) false
    else if c = 44 then goArr f rest es true
    else some (.error (.unexpectedChar c))
termination_by structural f _ _ _ => f

end

/-- `parse_element(root)` on a remaining input, with fuel
`length + 1`. -/
def parseElement (root : Bool) (l : List Nat) :
    Option (Except PyErr (Option JSONValue × List Nat)) :=
  peGo (l.length + 1) root l none false

/-- The public entry point `parse(s)`: run `parse_element(True)` and return
its value; fuel exhaustion surfaces as `RecursionError`. -/
def parse (l : List Nat) : Except PyErr JSONValue :=
  match parseElement true l with
  | none => .error .recursionError
  | some (.error e) => .error e
  | some (.ok (o, _)) => .ok (optToVal o)

/-- A list made only of JSON whitespace characters. -/
def wsOnly (w : List Nat) : Prop := ∀ c ∈ w, isWsChar c = true

instance : DecidablePred wsOnly := fun w =>
  inferInstanceAs (Decidable (∀ c ∈ w, isWsChar c = true))

/-- The number scanner's run over `l` from state `st` does not end in a
freshly opened fraction part: either `l` does not end with `.`, or (when `l`
is empty) the state itself has no digitless open fraction. -/
def numDotFree (st : NumSt) (l : List Nat) : Prop :=
  match l.getLast? with
  | some c => c ≠ 46
  | none => ¬(st.fr = true ∧ st.sf = false)

/-- Coherence facts of `parse_number`'s loop state, true of the initial
state and preserved by every consuming step. -/
def NumGood (st : NumSt) : Prop :=
  (st.se = true → st.ex = true) ∧
  (st.ex = true → st.fr = false) ∧
  (st.ex = true → st.se = false → pyFloatAccepts st.acc = false) ∧
  (st.fr = false → st.ex = false → st.acc ≠ [] →
    (st.zero = true ∨ st.num = true ∨ (st.acc.length = 1 ∧ st.sgn = true)))

/-! ### Basic lemmas about the hex scanner and the string loop -/

theorem hexGo_ok : ∀ (n : Nat) (l acc : List Nat) (o : Option Nat) (r : List Nat),
    hexGo n l acc = .ok (o, r) → o.isSome ∧ r = l.drop n ∧ n ≤ l.length := by
  intro n
  induction n with
  | zero =>
    intro l acc o r h
    unfold hexGo at h
    cases hp : pyIntHex acc with
    | none => rw [hp] at h; exact absurd h (by simp)
    | some v =>
      rw [hp] at h
      simp only [Except.ok.injEq, Prod.mk.injEq] at h
      obtain ⟨h1, h2⟩ := h
      subst h1; subst h2
      exact ⟨rfl, by simp, by omega⟩
  | succ n ih =>
    intro l acc o r h
    cases l with
    | nil => exact absurd h (by simp [hexGo])
    | cons c rest =>
      unfold hexGo at h
      by_cases hc : isHexChar c
      · rw [if_pos hc] at h
        obtain ⟨h1, h2, h3⟩ := ih rest (acc ++ [c]) o r h
        exact ⟨h1, by simpa using h2, by simpa using h3⟩
      · rw [if_neg hc] at h; exact absurd h (by simp)

theorem hexGo_err_ne : ∀ (n : Nat) (l acc : List Nat) (e : PyErr),
    hexGo n l acc = .error e → e ≠ .invalidUnicodeEscape := by
  intro n
  induction n with
  | zero =>
    intro l acc e h
    unfold hexGo at h
    cases hp : pyIntHex acc with
    | none => rw [hp] at h; simp only [Except.error.injEq] at h; simp [← h]
    | some v => rw [hp] at h; simp at h
  | succ n ih =>
    intro l acc e h
    cases l with
    | nil =>
      simp only [hexGo, Except.error.injEq] at h
      simp [← h]
    | cons c rest =>
      unfold hexGo at h
      by_cases hc : isHexChar c
      · rw [if_pos hc] at h; exact ih rest (acc ++ [c]) e h
      · rw [if_neg hc] at h; simp only [Except.error.injEq] at h; simp [← h]

theorem goStr_no_iue : ∀ (f : Nat) (l acc : List Nat),
    goStr f l acc ≠ some (.error .invalidUnicodeEscape) := by
  intro f
  induction f with
  | zero => intro l acc; simp [goStr]
  | succ f ih =>
    intro l acc
    cases l with
    | nil => simp [goStr]
    | cons c rest =>
      by_cases h34 : c = 34
      · simp [goStr, h34]
      · by_cases h92 : c = 92
        · cases rest with
          | nil => simp [goStr, h34, h92]
          | cons e r2 =>
            by_cases he : e = 117
            · subst he
              cases hx : parseHex 4 r2 with
              | error err =>
                have hne := hexGo_err_ne 4 r2 [] err hx
                simp [goStr, h34, h92, hx, hne]
              | ok p =>
                obtain ⟨o, r3⟩ := p
                have hsome := (hexGo_ok 4 r2 [] o r3 hx).1
                cases o with
                | none => simp at hsome
                | some code => simp [goStr, h34, h92, hx, ih]
            · unfold goStr
              rw [if_neg h34, if_pos h92]
              dsimp only
              split_ifs <;> first | exact ih _ _ | exact absurd rfl he | simp
        · by_cases hlt : c < 32
          · simp [goStr, h34, h92, hlt]
          · simp [goStr, h34, h92, hlt, ih]

/-! ### Literal parser characterization -/

theorem parseLiteral_keyword : ∀ (t : List Nat) (v : JSONValue) (rest : List Nat),
    parseLiteral t v (t ++ rest) =
      match rest with
      | [] => .ok (v, [])
      | c :: r =>
          if isValidLiteralEnding c then .ok (v, c :: r)
          else .error (.literalBadEnd c) := by
  intro t
  induction t with
  | nil => intro v rest; cases rest <;> simp [parseLiteral]
  | cons a ts ih => intro v rest; simp [parseLiteral, ih]

/-! ### Whitespace-prefix runs of the element loop -/

theorem peGo_ws_skip : ∀ (w : List Nat), wsOnly w → ∀ (l : List Nat) (g : Nat)
    (root : Bool) (o : Option JSONValue) (a : Bool),
    peGo (g + w.length) root (w ++ l) o a = peGo g root l o a := by
  intro w
  induction w with
  | nil => intro _ l g root o a; simp
  | cons c w' ih =>
    intro hws l g root o a
    have hc : isWsChar c = true := hws c (by simp)
    have hlen : g + (c :: w').length = (g + w'.length) + 1 := by
      simp [List.length_cons]; omega
    rw [hlen]
    show peGo ((g + w'.length) + 1) root (c :: (w' ++ l)) o a = _
    rw [peGo, if_pos hc]
    exact ih (fun x hx => hws x (by simp [hx])) l g root o a

/-! ### Claims C8, C9 -/

/-- C8: after `parse_literal` consumes a full keyword, it succeeds if and
only if the next character is whitespace, `,`, `]`, `}` or end-of-input, and
raises an error on any other following character; in particular
`parse("trueX")` fails rather than returning `true` with trailing data. -/
theorem literal_ending_check :
    (∀ (t : List Nat) (v : JSONValue) (rest : List Nat),
        parseLiteral t v (t ++ rest) =
          match rest with
          | [] => .ok (v, [])
          | c :: r =>
              if isValidLiteralEnding c then .ok (v, c :: r)
              else .error (.literalBadEnd c)) ∧
    parse (toCodes "trueX") = .error (.literalBadEnd 88) :=
  ⟨parseLiteral_keyword, rfl⟩

/-- C9 counterexample: a non-root `parse_element` call that reaches
end-of-input (here: on empty remaining input) returns normally with no value
(`None`, nothing consumed) instead of raising `UnexpectedCharacter`. -/
theorem parseElement_eof_counterexample :
    parseElement false [] = some (.ok (none, [])) := rfl

/-- C9 amended: a non-root call to `parse_element` that reaches end-of-input
after skipping whitespace without having produced a value returns normally
with `obj = None`; the root-only EOF check is skipped, so no error is
raised. -/
theorem parseElement_eof_returns_none (w : List Nat) (hw : wsOnly w) :
    parseElement false w = some (.ok (none, [])) := by
  have h := peGo_ws_skip w hw [] 1 false none false
  simp only [List.append_nil] at h
  show peGo (w.length + 1) false w none false = _
  rw [show w.length + 1 = 1 + w.length from by omega, h]
  rfl

/-- Witness for C9's amended theorem on a concrete whitespace cursor. -/
theorem parseElement_eof_returns_none_witness :
    wsOnly [32, 9] ∧ parseElement false [32, 9] = some (.ok (none, [])) :=
  ⟨by decide, parseElement_eof_returns_none [32, 9] (by decide)⟩

/-! ### Claim C4: duplicate object keys -/

theorem lookupKey_objInsert (m : List (List Nat × JSONValue)) (k : List Nat)
    (v : JSONValue) : lookupKey (objInsert m k v) k = some v := by
  induction m with
  | nil => simp [objInsert, lookupKey]
  | cons p rest ih =>
    obtain ⟨k', v'⟩ := p
    by_cases h : k' = k <;> simp [objInsert, lookupKey, h, ih]

theorem objInsert_keys_mem (m : List (List Nat × JSONValue)) (k : List Nat)
    (v : JSONValue) (h : k ∈ m.map Prod.fst) :
    (objInsert m k v).map Prod.fst = m.map Prod.fst := by
  induction m with
  | nil => simp at h
  | cons p rest ih =>
    obtain ⟨k', v'⟩ := p
    by_cases hk : k' = k
    · simp [objInsert, hk]
    · have : k ∈ rest.map Prod.fst := by
        simp at h
        rcases h with h | h
        · exact absurd h.symm hk
        · simpa using h
      simp [objInsert, hk, ih this]

theorem objInsert_keys_new (m : List (List Nat × JSONValue)) (k : List Nat)
    (v : JSONValue) (h : k ∉ m.map Prod.fst) :
    (objInsert m k v).map Prod.fst = m.map Prod.fst ++ [k] := by
  induction m with
  | nil => simp [objInsert]
  | cons p rest ih =>
    obtain ⟨k', v'⟩ := p
    by_cases hk : k' = k
    · exact absurd (by simp [hk]) h
    · have : k ∉ rest.map Prod.fst := fun hmem => h (by simp [hmem])
      simp [objInsert, hk, ih this]

theorem objInsert_keys_nodup (m : List (List Nat × JSONValue)) (k : List Nat)
    (v : JSONValue) (h : (m.map Prod.fst).Nodup) :
    ((objInsert m k v).map Prod.fst).Nodup := by
  by_cases hmem : k ∈ m.map Prod.fst
  · rw [objInsert_keys_mem m k v hmem]; exact h
  · rw [objInsert_keys_new m k v hmem]
    refine List.Nodup.append h (List.nodup_singleton k) ?_
    intro x hx hk
    rw [List.mem_singleton] at hk
    exact hmem (hk ▸ hx)

/-- C4: the object parser stores entries with Python dict assignment
(`objInsert`), so a duplicated key occurs exactly once in the produced
mapping, bound to the value of its last occurrence, at the iteration-order
position of its first occurrence; concretely
`parse('{"a":1,"a":2}')` is the object with the single entry `"a" ↦ 2`. -/
theorem object_duplicate_keys :
    parse [123, 34, 97, 34, 58, 49, 44, 34, 97, 34, 58, 50, 125] =
      .ok (.obj [([97], .int 2)]) ∧
    ∀ (m : List (List Nat × JSONValue)) (k : List Nat) (v : JSONValue),
      lookupKey (objInsert m k v) k = some v ∧
      (k ∈ m.map Prod.fst → (objInsert m k v).map Prod.fst = m.map Prod.fst) ∧
      (k ∉ m.map Prod.fst →
        (objInsert m k v).map Prod.fst = m.map Prod.fst ++ [k]) ∧
      ((m.map Prod.fst).Nodup → ((objInsert m k v).map Prod.fst).Nodup) :=
  ⟨rfl, fun m k v =>
    ⟨lookupKey_objInsert m k v, objInsert_keys_mem m k v,
     objInsert_keys_new m k v, objInsert_keys_nodup m k v⟩⟩

/-- Witness for C4's universally quantified part at a concrete mapping with
a duplicate assignment. -/
theorem object_duplicate_keys_witness :
    lookupKey (objInsert [([97], JSONValue.int 1), ([98], JSONValue.int 5)]
        [97] (JSONValue.int 2)) [97] = some (JSONValue.int 2) ∧
    (objInsert [([97], JSONValue.int 1), ([98], JSONValue.int 5)]
        [97] (JSONValue.int 2)).map Prod.fst = [[97], [98]] :=
  ⟨(object_duplicate_keys.2 [([97], JSONValue.int 1), ([98], JSONValue.int 5)]
      [97] (JSONValue.int 2)).1,
   by
    rw [(object_duplicate_keys.2 [([97], JSONValue.int 1),
        ([98], JSONValue.int 5)] [97] (JSONValue.int 2)).2.1 (by decide)]
    rfl⟩

/-! ### Claim C5: surrogate pair combination -/

/-- C5: whenever a `\uXXXX` escape yields a low-surrogate code unit
(0xDC00–0xDFFF) and the immediately preceding accumulated character is a high
surrogate (0xD800–0xDBFF), the two are replaced by the single code point
`(high-0xD800)*0x400+(low-0xDC00)+0x10000`; otherwise the code unit is
appended as-is (a lone surrogate is accepted, not rejected); in particular
`parse('"😀"')` is the one-character string U+1F600. -/
theorem surrogate_pair_combination :
    (∀ (s : List Nat) (h code : Nat), s.getLast? = some h →
        0xD800 ≤ h → h ≤ 0xDBFF → 0xDC00 ≤ code → code ≤ 0xDFFF →
        appendCU s code =
          s.dropLast ++ [(h - 0xD800) * 0x400 + (code - 0xDC00) + 0x10000]) ∧
    (∀ (s : List Nat) (code : Nat),
        (∀ h, s.getLast? = some h →
            ¬(0xD800 ≤ h ∧ h ≤ 0xDBFF ∧ 0xDC00 ≤ code ∧ code ≤ 0xDFFF)) →
        appendCU s code = s ++ [code]) ∧
    parse (toCodes "\"\\uD83D\\uDE00\"") = .ok (.str [0x1F600]) := by
  refine ⟨?_, ?_, rfl⟩
  · intro s h code hlast h1 h2 h3 h4
    unfold appendCU
    rw [hlast]
    exact if_pos ⟨h1, h2, h3, h4⟩
  · intro s code hcond
    unfold appendCU
    cases hlast : s.getLast? with
    | none => rfl
    | some h =>
      dsimp only
      rw [if_neg (hcond h hlast)]

/-- Witness for C5 at concrete inputs: a combining pair and a non-combining
append. -/
theorem surrogate_pair_combination_witness :
    appendCU [0xD83D] 0xDE00 = [0x1F600] ∧ appendCU [65] 66 = [65, 66] := by
  constructor
  · rw [surrogate_pair_combination.1 [0xD83D] 0xD83D 0xDE00 rfl (by decide)
      (by decide) (by decide) (by decide)]
    decide
  · exact surrogate_pair_combination.2.1 [65] 66
      (fun h hh => by simp at hh; omega)

/-! ### Claim C7: leading zeros -/

theorem goNum_zero_digit (d : Nat) (rest : List Nat) (h1 : 48 ≤ d) (h2 : d ≤ 57) :
    parseNumber (48 :: d :: rest) = .error (.unexpectedChar d) ∧
    parseNumber (45 :: 48 :: d :: rest) = .error (.unexpectedChar d) := by
  have h46 : d ≠ 46 := by omega
  have h101 : d ≠ 101 := by omega
  have h69 : d ≠ 69 := by omega
  have hdig : isDigitChar d = true := by simp [isDigitChar]; omega
  constructor
  · have step1 : parseNumber (48 :: d :: rest) =
        goNum { zero := true, acc := [48] } (d :: rest) := rfl
    rw [step1, goNum]
    simp [h46, h101, h69, hdig]
  · have step1 : parseNumber (45 :: 48 :: d :: rest) =
        goNum { zero := true, sgn := true, acc := [45, 48] } (d :: rest) := rfl
    rw [step1, goNum]
    simp [h46, h101, h69, hdig]

theorem parse_num_lift (c : Nat) (rest : List Nat) (e : PyErr)
    (hws : isWsChar c = false) (hns : isNumStart c = true)
    (hn : parseNumber (c :: rest) = .error e) :
    parse (c :: rest) = .error e := by
  have hcr : c = 45 ∨ (48 ≤ c ∧ c ≤ 57) := by
    simpa [isNumStart, isDigitChar] using hns
  have h123 : c ≠ 123 := by rcases hcr with h | h <;> omega
  have h91 : c ≠ 91 := by rcases hcr with h | h <;> omega
  have h34 : c ≠ 34 := by rcases hcr with h | h <;> omega
  unfold parse parseElement
  rw [show (c :: rest).length + 1 = (rest.length + 1) + 1 from by simp]
  rw [peGo]
  simp [hws, h123, h91, h34, hns, hn]

/-- C7: a numeric literal whose integer part starts with `0` immediately
followed by another digit (no `.` or exponent in between) makes the whole
parse fail with the number scanner's parse error, also after a leading `-`;
in particular `parse("01")`, `parse("012")` and `parse("-01")` fail. -/
theorem leading_zero_rejected (d : Nat) (rest : List Nat)
    (h1 : 48 ≤ d) (h2 : d ≤ 57) :
    parse (48 :: d :: rest) = .error (.unexpectedChar d) ∧
    parse (45 :: 48 :: d :: rest) = .error (.unexpectedChar d) := by
  obtain ⟨ha, hb⟩ := goNum_zero_digit d rest h1 h2
  exact ⟨parse_num_lift 48 _ _ (by decide) (by decide) ha,
         parse_num_lift 45 _ _ (by decide) (by decide) hb⟩

/-- Witness for C7 at the spec's concrete inputs `"01"` and `"-01"`. -/
theorem leading_zero_rejected_witness :
    (48 : Nat) ≤ 49 ∧ (49 : Nat) ≤ 57 ∧
    parse (toCodes "01") = .error (.unexpectedChar 49) ∧
    parse (toCodes "-01") = .error (.unexpectedChar 49) :=
  ⟨by decide, by decide, (leading_zero_rejected 49 [] (by decide) (by decide)).1,
   (leading_zero_rejected 49 [] (by decide) (by decide)).2⟩

/-! ### Claims C1, C2, C3 -/

/-- C1 (code bug): after a string key, a `,` where the colon is expected is
accepted by `parse_object` (the `not expects_object and val == ","` branch
fires because `expects_object` is still false), so
`parse('{"k1","k2":1}')` succeeds and silently drops the first key instead of
raising `UnexpectedCharacter`. -/
theorem object_comma_for_colon_accepted :
    parse [123, 34, 107, 49, 34, 44, 34, 107, 50, 34, 58, 49, 125] =
      .ok (.obj [([107, 50], .int 1)]) := rfl

/-- C2 (code bug): numeric literals that end right after a sign, a fresh
`.`, or an exponent marker are not all rejected with a parse error:
`parse("1.")` succeeds with the float `1.0` (Python `float("1.")` accepts),
while `parse("-")` and `parse("1e")` die with a `ValueError` escaping from
`int("-")`/`float("1e")`, which is not a `JSONParserError`. -/
theorem dangling_number_literals :
    parse (toCodes "1.") = .ok (.float (toCodes "1.")) ∧
    parse (toCodes "-") = .error .valueError ∧
    parse (toCodes "1e") = .error .valueError ∧
    PyErr.isParserError .valueError = false := ⟨rfl, rfl, rfl, rfl⟩

/-- C3 (code bug): `parse` does not confine failures to
`JSONParserError`: on input `"-"` (also nested, e.g. `"[-]"`) the
`int("-")` conversion raises a `ValueError` that escapes the public entry
point. -/
theorem parse_error_type_violation :
    parse (toCodes "-") = .error .valueError ∧
    PyErr.isParserError .valueError = false ∧
    parse (toCodes "[-]") = .error .valueError := ⟨rfl, rfl, rfl⟩

/-! ### `pyFloatAccepts` rejects strings ending in an exponent marker or
sign; groundwork for the number-scanner extension lemma. -/

theorem getLast?_snoc (l : List Nat) (c : Nat) : (l ++ [c]).getLast? = some c := by
  simp

theorem dropWhile_append_last (p : Nat → Bool) (m : List Nat) (c : Nat)
    (hc : p c = false) :
    (m ++ [c]).dropWhile p ≠ [] ∧ ((m ++ [c]).dropWhile p).getLast? = some c := by
  induction m with
  | nil => simp [List.dropWhile, hc]
  | cons a m' ih =>
    constructor
    · by_cases ha : p a
      · rw [List.cons_append, List.dropWhile_cons, if_pos ha]; exact ih.1
      · rw [List.cons_append, List.dropWhile_cons, if_neg (by simp [ha])]
        simp
    · by_cases ha : p a
      · rw [List.cons_append, List.dropWhile_cons, if_pos ha]; exact ih.2
      · rw [List.cons_append, List.dropWhile_cons, if_neg (by simp [ha])]
        exact getLast?_snoc (a :: m') c

theorem ends_last_decomp (r : List Nat) (c : Nat) (h1 : r ≠ [])
    (h2 : r.getLast? = some c) : ∃ m, r = m ++ [c] := by
  refine ⟨r.dropLast, ?_⟩
  have h3 := List.dropLast_append_getLast h1
  have h4 : r.getLast h1 = c := by
    have h5 := List.getLast?_eq_getLast r h1
    rw [h5] at h2
    exact (Option.some.injEq _ _).mp h2
  rw [h4] at h3
  exact h3.symm

theorem expTail_append_bad (m : List Nat) (c : Nat) (hc : isDigitChar c = false) :
    expTail (m ++ [c]) = false := by
  cases m with
  | nil =>
    by_cases hs : c = 43 ∨ c = 45
    · rcases hs with h | h <;> simp [expTail, stripSignF, h]
    · have h43 : c ≠ 43 := fun h => hs (Or.inl h)
      have h45 : c ≠ 45 := fun h => hs (Or.inr h)
      simp [expTail, stripSignF, h43, h45, hc]
  | cons a m' =>
    unfold expTail
    have core : ∀ (x : List Nat), (x ++ [c]).dropWhile isDigitChar ≠ [] →
        (!((x ++ [c]).takeWhile isDigitChar).isEmpty &&
          ((x ++ [c]).dropWhile isDigitChar).isEmpty) = false := by
      intro x hx
      have : ((x ++ [c]).dropWhile isDigitChar).isEmpty = false := by
        simpa [List.isEmpty_iff] using hx
      simp [this]
    by_cases ha : a = 43 || a = 45
    · rw [show (a :: m') ++ [c] = a :: (m' ++ [c]) from rfl]
      rw [show stripSignF (a :: (m' ++ [c])) = m' ++ [c] from by
        simp [stripSignF, ha]]
      exact core m' (dropWhile_append_last isDigitChar m' c hc).1
    · rw [show (a :: m') ++ [c] = a :: (m' ++ [c]) from rfl]
      rw [show stripSignF (a :: (m' ++ [c])) = a :: (m' ++ [c]) from by
        simp [stripSignF, ha]]
      rw [show a :: (m' ++ [c]) = (a :: m') ++ [c] from rfl]
      exact core (a :: m') (dropWhile_append_last isDigitChar (a :: m') c hc).1

theorem expPart_append_bad (m : List Nat) (c : Nat) (hc : isDigitChar c = false) :
    expPart (m ++ [c]) = false := by
  cases m with
  | nil =>
    simp only [List.nil_append]
    have ht : expTail ([] : List Nat) = false := by simp [expTail, stripSignF]
    simp [expPart, ht]
  | cons a m' =>
    rw [show (a :: m') ++ [c] = a :: (m' ++ [c]) from rfl]
    simp [expPart, expTail_append_bad m' c hc]

theorem pyFloat_append_bad (acc : List Nat) (c : Nat)
    (hc : c = 101 ∨ c = 69 ∨ c = 43 ∨ c = 45) :
    pyFloatAccepts (acc ++ [c]) = false := by
  have hcd : isDigitChar c = false := by
    rcases hc with h | h | h | h <;> simp [isDigitChar, h]
  have hc46 : c ≠ 46 := by rcases hc with h | h | h | h <;> omega
  cases acc with
  | nil =>
    simp only [List.nil_append]
    rcases hc with h | h | h | h <;> subst h <;> decide
  | cons a acc' =>
    obtain ⟨m, hm⟩ : ∃ m, stripSignF ((a :: acc') ++ [c]) = m ++ [c] := by
      rw [List.cons_append]
      by_cases ha : a = 43 || a = 45
      · exact ⟨acc', by simp [stripSignF, ha]⟩
      · exact ⟨a :: acc', by simp [stripSignF, ha]⟩
    unfold pyFloatAccepts
    rw [hm]
    obtain ⟨hne, hlast⟩ := dropWhile_append_last isDigitChar m c hcd
    cases hx : (m ++ [c]).dropWhile isDigitChar with
    | nil => exact absurd hx hne
    | cons c1 r2 =>
      rw [hx] at hlast
      dsimp only
      rw [hx]
      dsimp only
      by_cases h46 : c1 = 46
      · rw [if_pos h46]
        have hr2ne : r2 ≠ [] := by
          intro h; subst h
          simp at hlast
          omega
        have hlast2 : r2.getLast? = some c := by
          cases r2 with
          | nil => exact absurd rfl hr2ne
          | cons b r2' => simpa using hlast
        obtain ⟨m2, hm2⟩ := ends_last_decomp r2 c hr2ne hlast2
        subst hm2
        obtain ⟨hne3, hlast3⟩ := dropWhile_append_last isDigitChar m2 c hcd
        obtain ⟨m3, hm3⟩ := ends_last_decomp _ c hne3 hlast3
        rw [hm3, expPart_append_bad m3 c hcd]
        simp
      · rw [if_neg h46]
        by_cases he : c1 = 101 || c1 = 69
        · rw [if_pos (by simpa using he)]
          cases r2 with
          | nil =>
            have ht : expTail ([] : List Nat) = false := by decide
            rw [ht]; simp
          | cons b r2' =>
            have hlast2 : (b :: r2').getLast? = some c := by simpa using hlast
            obtain ⟨m2, hm2⟩ := ends_last_decomp (b :: r2') c (by simp) hlast2
            rw [hm2, expTail_append_bad m2 c hcd]
            simp
        · rw [if_neg (by simpa using he)]

/-! ### Extension lemmas: appending whitespace to a successfully parsed
input does not change the result.  First the number scanner. -/

theorem numFinish_ok_shape (st : NumSt) (l : List Nat) (v : JSONValue)
    (r : List Nat) (h : numFinish st l = .ok (v, r)) :
    r = l ∧ ∀ l', numFinish st l' = .ok (v, l') := by
  unfold numFinish at h ⊢
  by_cases h1 : (st.fr || st.ex) = true
  · rw [if_pos h1] at h
    by_cases h2 : pyFloatAccepts st.acc = true
    · rw [if_pos h2] at h
      simp only [Except.ok.injEq, Prod.mk.injEq] at h
      obtain ⟨hv, hr⟩ := h
      subst hv; subst hr
      exact ⟨rfl, fun l' => by rw [if_pos h1, if_pos h2]⟩
    · rw [if_neg h2] at h; exact absurd h (by simp)
  · rw [if_neg h1] at h
    cases hp : pyIntDec st.acc with
    | none => rw [hp] at h; exact absurd h (by simp)
    | some n =>
      rw [hp] at h
      simp only [Except.ok.injEq, Prod.mk.injEq] at h
      obtain ⟨hv, hr⟩ := h
      subst hv; subst hr
      refine ⟨rfl, fun l' => ?_⟩
      rw [if_neg h1]

theorem numDotFree_of_cons (st st' : NumSt) (c b : Nat) (r : List Nat)
    (h : numDotFree st (c :: b :: r)) : numDotFree st' (b :: r) := by
  unfold numDotFree at h ⊢
  rw [List.getLast?_cons_cons] at h
  exact h

set_option maxHeartbeats 1600000 in
theorem goNum_ext_ne : ∀ (l : List Nat) (st : NumSt) (v : JSONValue) (r w : List Nat),
    goNum st l = .ok (v, r) → r ≠ [] → goNum st (l ++ w) = .ok (v, r ++ w) := by
  intro l
  induction l with
  | nil =>
    intro st v r w h hr
    exact absurd (numFinish_ok_shape st [] v r h).1 hr
  | cons c rest ih =>
    intro st v r w h hr
    rw [List.cons_append]
    rw [goNum] at h ⊢
    split_ifs at h ⊢ <;>
      first
        | exact absurd h (by simp)
        | exact ih _ _ _ _ h hr
        | (obtain ⟨hr', hshift⟩ := numFinish_ok_shape _ _ _ _ h
           subst hr'
           exact hshift _)

theorem numDotFree_nil_iff (st : NumSt) :
    numDotFree st [] ↔ ¬(st.fr = true ∧ st.sf = false) := Iff.rfl

set_option maxHeartbeats 2000000 in
theorem goNum_ext_nil : ∀ (l : List Nat) (st : NumSt) (v : JSONValue) (w : List Nat),
    NumGood st → wsOnly w → numDotFree st l → goNum st l = .ok (v, []) →
    goNum st (l ++ w) = .ok (v, w) := by
  intro l
  induction l with
  | nil =>
    intro st v w hg hw hdf h
    rw [List.nil_append]
    obtain ⟨-, hshift⟩ := numFinish_ok_shape st [] v [] h
    obtain ⟨g1, g2, g3, g4⟩ := hg
    have hdf' : ¬(st.fr = true ∧ st.sf = false) := (numDotFree_nil_iff st).mp hdf
    cases w with
    | nil => exact h
    | cons w1 w' =>
      have hw1 : isWsChar w1 = true := hw w1 (by simp)
      have hw1' : w1 = 32 ∨ w1 = 9 ∨ w1 = 10 ∨ w1 = 13 := by
        simpa [isWsChar, or_assoc] using hw1
      rw [goNum]
      split_ifs with hA hB hC hD hE hF hG hH hI hJ hK hL hM hN hO hP hQ hR hS hT hU hV
      all_goals try exact hshift _
      all_goals try ((exfalso; rcases hw1' with h' | h' | h' | h' <;> subst h' <;>
        simp_all [isDigitChar]); done)
      -- remaining: state-based contradictions
      all_goals exfalso
      · -- exponent open with no digit: numFinish would have raised ValueError
        have hacc := g3 hH (by simpa using hK)
        have hco := hshift []
        unfold numFinish at hco
        rw [if_pos (by simp [hH] : (st.fr || st.ex) = true)] at hco
        rw [if_neg (by simp [hacc])] at hco
        exact absurd hco (by simp)
      · -- empty accumulator: int("") would have raised ValueError
        simp only [Bool.not_eq_true] at hE hH
        have hacc : st.acc = [] := by simpa [List.isEmpty_iff] using hL
        have hco := hshift []
        unfold numFinish at hco
        rw [if_neg (by simp [hE, hH])] at hco
        rw [hacc] at hco
        exact absurd hco (by simp [pyIntDec])
  | cons c rest ih =>
    intro st v w hg hw hdf h
    rw [List.cons_append]
    rw [goNum] at h ⊢
    split_ifs at h ⊢ with hc1 hc2 hc3 hc4 hc5 hc6 hc7 hc8 hc9 hc10 hc11 hc12 hc13 hc14 hc15 hc16 hc17 hc18 hc19 hc20 hc21 hc22
    all_goals try (have hre := (numFinish_ok_shape _ _ _ _ h).1; simp at hre)
    -- 11 recursive branches
    · -- '.' consumed: fraction opened
      have hex0 : ¬st.ex = true := fun hx => hc2 (by simp [hx])
      refine ih _ _ _ ⟨?_, ?_, ?_, ?_⟩ hw ?_ h
      · intro hse; exact absurd (hg.1 hse) hex0
      · intro hex; exact absurd hex hex0
      · intro hex _; exact absurd hex hex0
      · intro h4; exact absurd h4 (by simp)
      · cases rest with
        | nil => exfalso; rw [hc1] at hdf; simp [numDotFree] at hdf
        | cons b r' => exact numDotFree_of_cons _ _ _ _ _ hdf
    · -- 'e'/'E' consumed: exponent opened
      simp only [decide_eq_true_eq, Bool.or_eq_true] at hc3
      refine ih _ _ _ ⟨?_, ?_, ?_, ?_⟩ hw ?_ h
      · intro _; rfl
      · intro _; rfl
      · intro _ _; exact pyFloat_append_bad st.acc c (by tauto)
      · intro _ h5 _; exact absurd h5 (by simp)
      · cases rest with
        | nil => rw [numDotFree_nil_iff]; simp
        | cons b r' => exact numDotFree_of_cons _ _ _ _ _ hdf
    · -- fraction digit consumed
      refine ih _ _ _ ⟨?_, ?_, ?_, ?_⟩ hw ?_ h
      · exact hg.1
      · intro hex; exact absurd (hg.2.1 hex) (by simp [hc5])
      · intro hex _; exact absurd (hg.2.1 hex) (by simp [hc5])
      · intro h4; exact absurd h4 (by simp [hc5])
      · cases rest with
        | nil => rw [numDotFree_nil_iff]; simp
        | cons b r' => exact numDotFree_of_cons _ _ _ _ _ hdf
    · -- exponent sign consumed
      simp only [Bool.and_eq_true, Bool.not_eq_true', decide_eq_true_eq,
        Bool.or_eq_true] at hc9
      refine ih _ _ _ ⟨?_, ?_, ?_, ?_⟩ hw ?_ h
      · exact hg.1
      · exact hg.2.1
      · intro _ _; exact pyFloat_append_bad st.acc c (by tauto)
      · intro _ h5 _; exact absurd h5 (by simp [hc8])
      · cases rest with
        | nil => rw [numDotFree_nil_iff]; intro hcon; exact hc5 hcon.1
        | cons b r' => exact numDotFree_of_cons _ _ _ _ _ hdf
    · -- exponent digit consumed
      refine ih _ _ _ ⟨?_, ?_, ?_, ?_⟩ hw ?_ h
      · intro _; exact hc8
      · exact hg.2.1
      · intro _ hse; exact absurd hse (by simp)
      · intro _ h5 _; exact absurd h5 (by simp [hc8])
      · cases rest with
        | nil => rw [numDotFree_nil_iff]; intro hcon; exact hc5 hcon.1
        | cons b r' => exact numDotFree_of_cons _ _ _ _ _ hdf
    · -- leading '-' consumed
      have hacc : st.acc = [] := by simpa [List.isEmpty_iff] using hc12
      refine ih _ _ _ ⟨?_, ?_, ?_, ?_⟩ hw ?_ h
      · exact hg.1
      · exact hg.2.1
      · intro hex _; exact absurd hex hc8
      · intro _ _ _; exact Or.inr (Or.inr ⟨by simp [hacc], rfl⟩)
      · cases rest with
        | nil => rw [numDotFree_nil_iff]; intro hcon; exact hc5 hcon.1
        | cons b r' => exact numDotFree_of_cons _ _ _ _ _ hdf
    · -- leading '0' consumed
      refine ih _ _ _ ⟨?_, ?_, ?_, ?_⟩ hw ?_ h
      · exact hg.1
      · exact hg.2.1
      · intro hex _; exact absurd hex hc8
      · intro _ _ _; exact Or.inl rfl
      · cases rest with
        | nil => rw [numDotFree_nil_iff]; intro hcon; exact hc5 hcon.1
        | cons b r' => exact numDotFree_of_cons _ _ _ _ _ hdf
    · -- leading nonzero digit consumed
      refine ih _ _ _ ⟨?_, ?_, ?_, ?_⟩ hw ?_ h
      · exact hg.1
      · exact hg.2.1
      · intro hex _; exact absurd hex hc8
      · intro _ _ _; exact Or.inr (Or.inl rfl)
      · cases rest with
        | nil => rw [numDotFree_nil_iff]; intro hcon; exact hc5 hcon.1
        | cons b r' => exact numDotFree_of_cons _ _ _ _ _ hdf
    · -- '0' after a lone sign
      refine ih _ _ _ ⟨?_, ?_, ?_, ?_⟩ hw ?_ h
      · exact hg.1
      · exact hg.2.1
      · intro hex _; exact absurd hex hc8
      · intro _ _ _; exact Or.inl rfl
      · cases rest with
        | nil => rw [numDotFree_nil_iff]; intro hcon; exact hc5 hcon.1
        | cons b r' => exact numDotFree_of_cons _ _ _ _ _ hdf
    · -- nonzero digit after a lone sign
      refine ih _ _ _ ⟨?_, ?_, ?_, ?_⟩ hw ?_ h
      · exact hg.1
      · exact hg.2.1
      · intro hex _; exact absurd hex hc8
      · intro _ _ _; exact Or.inr (Or.inl rfl)
      · cases rest with
        | nil => rw [numDotFree_nil_iff]; intro hcon; exact hc5 hcon.1
        | cons b r' => exact numDotFree_of_cons _ _ _ _ _ hdf
    · -- integer-part digit consumed
      refine ih _ _ _ ⟨?_, ?_, ?_, ?_⟩ hw ?_ h
      · exact hg.1
      · exact hg.2.1
      · intro hex _; exact absurd hex hc8
      · intro _ _ _; exact Or.inr (Or.inl hc21)
      · cases rest with
        | nil => rw [numDotFree_nil_iff]; intro hcon; exact hc5 hcon.1
        | cons b r' => exact numDotFree_of_cons _ _ _ _ _ hdf

/-! ### Extension lemmas for the literal, hex and string parsers -/

theorem hexGo_ext : ∀ (n : Nat) (l acc : List Nat) (o : Option Nat) (r w : List Nat),
    hexGo n l acc = .ok (o, r) → hexGo n (l ++ w) acc = .ok (o, r ++ w) := by
  intro n
  induction n with
  | zero =>
    intro l acc o r w h
    unfold hexGo at h ⊢
    cases hp : pyIntHex acc with
    | none => rw [hp] at h; exact absurd h (by simp)
    | some v =>
      rw [hp] at h
      try rw [hp]
      have h' : (Except.ok (some v, l) : Except PyErr (Option Nat × List Nat)) =
          .ok (o, r) := h
      simp only [Except.ok.injEq, Prod.mk.injEq] at h'
      obtain ⟨h1, h2⟩ := h'
      subst h1; subst h2
      rfl
  | succ n ih =>
    intro l acc o r w h
    cases l with
    | nil => exact absurd h (by simp [hexGo])
    | cons c rest =>
      rw [List.cons_append]
      unfold hexGo at h ⊢
      by_cases hc : isHexChar c
      · rw [if_pos hc] at h ⊢; exact ih rest (acc ++ [c]) o r w h
      · rw [if_neg hc] at h; exact absurd h (by simp)

theorem parseLiteral_ext : ∀ (t : List Nat) (v x : JSONValue) (l r w : List Nat),
    parseLiteral t v l = .ok (x, r) →
    (r ≠ [] → parseLiteral t v (l ++ w) = .ok (x, r ++ w)) ∧
    (r = [] → wsOnly w → parseLiteral t v (l ++ w) = .ok (x, w)) := by
  intro t
  induction t with
  | nil =>
    intro v x l r w h
    cases l with
    | nil =>
      simp only [parseLiteral, Except.ok.injEq, Prod.mk.injEq] at h
      obtain ⟨h1, h2⟩ := h
      subst h1; subst h2
      refine ⟨fun hne => absurd rfl hne, fun _ hws => ?_⟩
      rw [List.nil_append]
      cases w with
      | nil => rfl
      | cons w1 w' =>
        have hw1 : isWsChar w1 = true := hws w1 (by simp)
        have : isValidLiteralEnding w1 = true := by simp [isValidLiteralEnding, hw1]
        simp [parseLiteral, this]
    | cons c rest =>
      by_cases hv : isValidLiteralEnding c
      · simp only [parseLiteral, if_pos hv, Except.ok.injEq, Prod.mk.injEq] at h
        obtain ⟨h1, h2⟩ := h
        subst h1; subst h2
        refine ⟨fun _ => ?_, fun hnil _ => absurd hnil (by simp)⟩
        rw [List.cons_append]
        simp [parseLiteral, hv]
      · simp only [parseLiteral, if_neg hv] at h
        exact absurd h (by simp)
  | cons a ts ih =>
    intro v x l r w h
    cases l with
    | nil => exact absurd h (by simp [parseLiteral])
    | cons c rest =>
      by_cases hc : c = a
      · rw [List.cons_append]
        simp only [parseLiteral, if_pos hc] at h
        have := ih v x rest r w h
        constructor
        · intro hne
          simp only [parseLiteral, if_pos hc]
          exact this.1 hne
        · intro hnil hws
          simp only [parseLiteral, if_pos hc]
          exact this.2 hnil hws
      · simp only [parseLiteral, if_neg hc] at h
        exact absurd h (by simp)

theorem goStr_ext : ∀ (f : Nat) (l acc : List Nat) (s r w : List Nat) (k : Nat),
    goStr f l acc = some (.ok (s, r)) →
    goStr (f + k) (l ++ w) acc = some (.ok (s, r ++ w)) := by
  intro f
  induction f with
  | zero => intro l acc s r w k h; exact absurd h (by simp [goStr])
  | succ f ih =>
    intro l acc s r w k h
    cases l with
    | nil => exact absurd h (by simp [goStr])
    | cons c rest =>
      rw [List.cons_append]
      have hfk : (f + 1) + k = (f + k) + 1 := by omega
      rw [hfk]
      rw [goStr.eq_def] at h ⊢
      dsimp only at h ⊢
      by_cases h34 : c = 34
      · rw [if_pos h34] at h ⊢
        simp only [Option.some.injEq, Except.ok.injEq, Prod.mk.injEq] at h
        obtain ⟨h1, h2⟩ := h
        subst h1; subst h2
        rfl
      · rw [if_neg h34] at h ⊢
        by_cases h92 : c = 92
        · rw [if_pos h92] at h ⊢
          cases rest with
          | nil => exact absurd h (by simp)
          | cons e r2 =>
            rw [List.cons_append]
            dsimp only at h ⊢
            by_cases he1 : e = 34
            · rw [if_pos he1] at h ⊢; exact ih _ _ _ _ _ _ h
            · rw [if_neg he1] at h ⊢
              by_cases he2 : e = 92
              · rw [if_pos he2] at h ⊢; exact ih _ _ _ _ _ _ h
              · rw [if_neg he2] at h ⊢
                by_cases he3 : e = 47
                · rw [if_pos he3] at h ⊢; exact ih _ _ _ _ _ _ h
                · rw [if_neg he3] at h ⊢
                  by_cases he4 : e = 98
                  · rw [if_pos he4] at h ⊢; exact ih _ _ _ _ _ _ h
                  · rw [if_neg he4] at h ⊢
                    by_cases he5 : e = 102
                    · rw [if_pos he5] at h ⊢; exact ih _ _ _ _ _ _ h
                    · rw [if_neg he5] at h ⊢
                      by_cases he6 : e = 110
                      · rw [if_pos he6] at h ⊢; exact ih _ _ _ _ _ _ h
                      · rw [if_neg he6] at h ⊢
                        by_cases he7 : e = 114
                        · rw [if_pos he7] at h ⊢; exact ih _ _ _ _ _ _ h
                        · rw [if_neg he7] at h ⊢
                          by_cases he8 : e = 116
                          · rw [if_pos he8] at h ⊢; exact ih _ _ _ _ _ _ h
                          · rw [if_neg he8] at h ⊢
                            by_cases he9 : e = 117
                            · rw [if_pos he9] at h ⊢
                              cases hx : parseHex 4 r2 with
                              | error err => rw [hx] at h; exact absurd h (by simp)
                              | ok p =>
                                obtain ⟨o, r3⟩ := p
                                rw [hx] at h
                                have hx' : parseHex 4 (r2 ++ w) = .ok (o, r3 ++ w) :=
                                  hexGo_ext 4 r2 [] o r3 w hx
                                rw [hx']
                                cases o with
                                | none => exact absurd h (by simp)
                                | some code =>
                                  dsimp only at h ⊢
                                  exact ih _ _ _ _ _ _ h
                            · rw [if_neg he9] at h
                              exact absurd h (by simp)
        · rw [if_neg h92] at h ⊢
          by_cases hlt : c < 32
          · rw [if_pos hlt] at h; exact absurd h (by simp)
          · rw [if_neg hlt] at h ⊢
            exact ih _ _ _ _ _ _ h

/-! ### Helpers for the element-loop extension lemma -/

theorem numGood_init : NumGood {} :=
  ⟨by simp, by simp, by simp, by simp⟩

theorem numDotFree_of_ne (st : NumSt) (l : List Nat) (hne : l ≠ [])
    (h : l.getLast? ≠ some 46) : numDotFree st l := by
  unfold numDotFree
  cases hx : l.getLast? with
  | none =>
    rw [List.getLast?_eq_none_iff] at hx
    exact absurd hx hne
  | some x =>
    intro heq
    subst heq
    exact h hx

theorem peGo_nil_ok (f : Nat) (root : Bool) (o : Option JSONValue) (a : Bool)
    (v : Option JSONValue) (r : List Nat)
    (h : peGo f root [] o a = some (.ok (v, r))) : v = o ∧ r = [] := by
  cases f with
  | zero => exact absurd h (by simp [peGo])
  | succ f =>
    rw [peGo] at h
    by_cases hc : (root && o.isNone && !a) = true
    · rw [if_pos hc] at h; exact absurd h (by simp)
    · rw [if_neg hc] at h
      simp only [Option.some.injEq, Except.ok.injEq, Prod.mk.injEq] at h
      exact ⟨h.1.symm, h.2.symm⟩

theorem peGo_ws_run (f : Nat) (w : List Nat) (root : Bool) (o : Option JSONValue)
    (a : Bool) (v : Option JSONValue) (hw : wsOnly w)
    (h : peGo f root [] o a = some (.ok (v, []))) :
    peGo (f + w.length) root w o a = some (.ok (v, [])) := by
  have hs := peGo_ws_skip w hw [] f root o a
  rw [List.append_nil] at hs
  rw [hs]
  exact h

set_option maxHeartbeats 4000000 in
theorem parsersExt : ∀ (f : Nat),
    (∀ (root : Bool) (l : List Nat) (o : Option JSONValue) (a : Bool)
        (v : Option JSONValue) (r w : List Nat), wsOnly w →
        peGo f root l o a = some (.ok (v, r)) →
        (a = true ∨ w = [] ∨ r ≠ [] ∨ l.getLast? ≠ some 46) →
        peGo (f + w.length) root (l ++ w) o a =
          some (.ok (v, if r.isEmpty then [] else r ++ w))) ∧
    (∀ (l : List Nat) (m : List (List Nat × JSONValue)) (key : List Nat)
        (ek ec eo : Bool) (m' : List (List Nat × JSONValue)) (r w : List Nat),
        wsOnly w →
        goObj f l m key ek ec eo = some (.ok (m', r)) →
        goObj (f + w.length) (l ++ w) m key ek ec eo = some (.ok (m', r ++ w))) ∧
    (∀ (l : List Nat) (es : List JSONValue) (ee : Bool)
        (es' : List JSONValue) (r w : List Nat), wsOnly w →
        goArr f l es ee = some (.ok (es', r)) →
        goArr (f + w.length) (l ++ w) es ee = some (.ok (es', r ++ w))) := by
  intro f
  induction f with
  | zero =>
    refine ⟨?_, ?_, ?_⟩
    · intro root l o a v r w _ h _; exact absurd h (by simp [peGo])
    · intro l m key ek ec eo m' r w _ h; exact absurd h (by simp [goObj])
    · intro l es ee es' r w _ h; exact absurd h (by simp [goArr])
  | succ f IH =>
    obtain ⟨pe_ih, obj_ih, arr_ih⟩ := IH
    refine ⟨?_, ?_, ?_⟩
    · -- parse_element loop
      intro root l o a v r w hw h hcond
      by_cases hwnil : w = []
      · subst hwnil
        cases r with
        | nil => simpa using h
        | cons rc rr => simpa using h
      cases l with
      | nil =>
        rw [peGo] at h
        by_cases hru : (root && o.isNone && !a) = true
        · rw [if_pos hru] at h; exact absurd h (by simp)
        · rw [if_neg hru] at h
          simp only [Option.some.injEq, Except.ok.injEq, Prod.mk.injEq] at h
          obtain ⟨h1, h2⟩ := h
          subst h1; subst h2
          rw [List.nil_append]
          have hs := peGo_ws_skip w hw [] (f + 1) root o a
          rw [List.append_nil] at hs
          rw [hs, peGo, if_neg hru]
          simp
      | cons c rest =>
        rw [List.cons_append]
        rw [show (f + 1) + w.length = (f + w.length) + 1 from by omega]
        rw [peGo] at h ⊢
        by_cases hws1 : isWsChar c = true
        · rw [if_pos hws1] at h ⊢
          refine pe_ih root rest o a v r w hw h ?_
          rcases hcond with hc | hc | hc | hc
          · exact Or.inl hc
          · exact Or.inr (Or.inl hc)
          · exact Or.inr (Or.inr (Or.inl hc))
          · refine Or.inr (Or.inr (Or.inr ?_))
            cases rest with
            | nil => simp
            | cons b r' => rwa [List.getLast?_cons_cons] at hc
        · rw [if_neg hws1] at h ⊢
          by_cases ha : a = true
          · rw [if_pos ha] at h ⊢
            by_cases hroot : root = true
            · rw [if_pos hroot] at h; exact absurd h (by simp)
            · rw [if_neg hroot] at h ⊢
              simp only [Option.some.injEq, Except.ok.injEq, Prod.mk.injEq] at h
              obtain ⟨h1, h2⟩ := h
              subst h1; subst h2
              simp
          · rw [if_neg ha] at h ⊢
            by_cases hc123 : c = 123
            · rw [if_pos hc123] at h ⊢
              cases hobj : goObj f rest [] [] true false false with
              | none => rw [hobj] at h; exact absurd h (by simp)
              | some res =>
                rw [hobj] at h
                cases res with
                | error e => exact absurd h (by simp)
                | ok p =>
                  obtain ⟨mm, r1⟩ := p
                  dsimp only at h
                  rw [obj_ih rest [] [] true false false mm r1 w hw hobj]
                  dsimp only
                  exact pe_ih root r1 (some (.obj mm)) true v r w hw h (Or.inl rfl)
            · rw [if_neg hc123] at h ⊢
              by_cases hc91 : c = 91
              · rw [if_pos hc91] at h ⊢
                cases harr : goArr f rest [] true with
                | none => rw [harr] at h; exact absurd h (by simp)
                | some res =>
                  rw [harr] at h
                  cases res with
                  | error e => exact absurd h (by simp)
                  | ok p =>
                    obtain ⟨ees, r1⟩ := p
                    dsimp only at h
                    rw [arr_ih rest [] true ees r1 w hw harr]
                    dsimp only
                    exact pe_ih root r1 (some (.arr ees)) true v r w hw h (Or.inl rfl)
              · rw [if_neg hc91] at h ⊢
                by_cases hc34 : c = 34
                · rw [if_pos hc34] at h ⊢
                  simp only [parseString] at h ⊢
                  cases hstr : goStr f rest [] with
                  | none => rw [hstr] at h; exact absurd h (by simp)
                  | some res =>
                    rw [hstr] at h
                    cases res with
                    | error e => exact absurd h (by simp)
                    | ok p =>
                      obtain ⟨s, r1⟩ := p
                      dsimp only at h
                      rw [goStr_ext f rest [] s r1 w w.length hstr]
                      dsimp only
                      exact pe_ih root r1 (some (.str s)) true v r w hw h (Or.inl rfl)
                · rw [if_neg hc34] at h ⊢
                  by_cases hnum : isNumStart c = true
                  · rw [if_pos hnum] at h ⊢
                    cases hn : parseNumber (c :: rest) with
                    | error e => rw [hn] at h; exact absurd h (by simp)
                    | ok p =>
                      obtain ⟨nv, rn⟩ := p
                      rw [hn] at h
                      dsimp only at h
                      cases rn with
                      | nil =>
                        obtain ⟨hv, hr⟩ := peGo_nil_ok f root (some nv) true v r h
                        subst hv; subst hr
                        have hdf : numDotFree {} (c :: rest) := by
                          refine numDotFree_of_ne {} (c :: rest) (by simp) ?_
                          rcases hcond with hc | hc | hc | hc
                          · exact absurd hc ha
                          · exact absurd hc hwnil
                          · exact absurd rfl hc
                          · exact hc
                        have hn' : parseNumber (c :: (rest ++ w)) = .ok (nv, w) :=
                          goNum_ext_nil (c :: rest) {} nv w numGood_init hw hdf hn
                        rw [hn']
                        dsimp only
                        rw [peGo_ws_run f w root (some nv) true (some nv) hw h]
                        simp
                      | cons b rn' =>
                        have hn' : parseNumber (c :: (rest ++ w)) =
                            .ok (nv, (b :: rn') ++ w) :=
                          goNum_ext_ne (c :: rest) {} nv (b :: rn') w hn (by simp)
                        rw [hn']
                        dsimp only
                        exact pe_ih root (b :: rn') (some nv) true v r w hw h (Or.inl rfl)
                  · rw [if_neg hnum] at h ⊢
                    by_cases hc116 : c = 116
                    · rw [if_pos hc116] at h ⊢
                      cases hlit : parseLiteral (toCodes "true") (.bool true) (c :: rest) with
                      | error e => rw [hlit] at h; exact absurd h (by simp)
                      | ok p =>
                        obtain ⟨lv, rl⟩ := p
                        rw [hlit] at h
                        dsimp only at h
                        cases rl with
                        | nil =>
                          obtain ⟨hv, hr⟩ := peGo_nil_ok f root (some lv) true v r h
                          subst hv; subst hr
                          have hl' : parseLiteral (toCodes "true") (.bool true)
                              (c :: (rest ++ w)) = .ok (lv, w) :=
                            (parseLiteral_ext (toCodes "true") (.bool true) lv
                              (c :: rest) [] w hlit).2 rfl hw
                          rw [hl']
                          dsimp only
                          rw [peGo_ws_run f w root (some lv) true (some lv) hw h]
                          simp
                        | cons b rl' =>
                          have hl' : parseLiteral (toCodes "true") (.bool true)
                              (c :: (rest ++ w)) = .ok (lv, (b :: rl') ++ w) :=
                            (parseLiteral_ext (toCodes "true") (.bool true) lv
                              (c :: rest) (b :: rl') w hlit).1 (by simp)
                          rw [hl']
                          dsimp only
                          exact pe_ih root (b :: rl') (some lv) true v r w hw h (Or.inl rfl)
                    · rw [if_neg hc116] at h ⊢
                      by_cases hc102 : c = 102
                      · rw [if_pos hc102] at h ⊢
                        cases hlit : parseLiteral (toCodes "false") (.bool false) (c :: rest) with
                        | error e => rw [hlit] at h; exact absurd h (by simp)
                        | ok p =>
                          obtain ⟨lv, rl⟩ := p
                          rw [hlit] at h
                          dsimp only at h
                          cases rl with
                          | nil =>
                            obtain ⟨hv, hr⟩ := peGo_nil_ok f root (some lv) true v r h
                            subst hv; subst hr
                            have hl' : parseLiteral (toCodes "false") (.bool false)
                                (c :: (rest ++ w)) = .ok (lv, w) :=
                              (parseLiteral_ext (toCodes "false") (.bool false) lv
                                (c :: rest) [] w hlit).2 rfl hw
                            rw [hl']
                            dsimp only
                            rw [peGo_ws_run f w root (some lv) true (some lv) hw h]
                            simp
                          | cons b rl' =>
                            have hl' : parseLiteral (toCodes "false") (.bool false)
                                (c :: (rest ++ w)) = .ok (lv, (b :: rl') ++ w) :=
                              (parseLiteral_ext (toCodes "false") (.bool false) lv
                                (c :: rest) (b :: rl') w hlit).1 (by simp)
                            rw [hl']
                            dsimp only
                            exact pe_ih root (b :: rl') (some lv) true v r w hw h (Or.inl rfl)
                      · rw [if_neg hc102] at h ⊢
                        by_cases hc110 : c = 110
                        · rw [if_pos hc110] at h ⊢
                          cases hlit : parseLiteral (toCodes "null") .null (c :: rest) with
                          | error e => rw [hlit] at h; exact absurd h (by simp)
                          | ok p =>
                            obtain ⟨lv, rl⟩ := p
                            rw [hlit] at h
                            dsimp only at h
                            cases rl with
                            | nil =>
                              obtain ⟨hv, hr⟩ := peGo_nil_ok f root (some lv) true v r h
                              subst hv; subst hr
                              have hl' : parseLiteral (toCodes "null") .null
                                  (c :: (rest ++ w)) = .ok (lv, w) :=
                                (parseLiteral_ext (toCodes "null") .null lv
                                  (c :: rest) [] w hlit).2 rfl hw
                              rw [hl']
                              dsimp only
                              rw [peGo_ws_run f w root (some lv) true (some lv) hw h]
                              simp
                            | cons b rl' =>
                              have hl' : parseLiteral (toCodes "null") .null
                                  (c :: (rest ++ w)) = .ok (lv, (b :: rl') ++ w) :=
                                (parseLiteral_ext (toCodes "null") .null lv
                                  (c :: rest) (b :: rl') w hlit).1 (by simp)
                              rw [hl']
                              dsimp only
                              exact pe_ih root (b :: rl') (some lv) true v r w hw h (Or.inl rfl)
                        · rw [if_neg hc110] at h
                          exact absurd h (by simp)
    · -- parse_object loop
      intro l m key ek ec eo m' r w hw h
      by_cases hwnil : w = []
      · subst hwnil; simpa using h
      cases l with
      | nil => rw [goObj] at h; exact absurd h (by simp)
      | cons c rest =>
        rw [List.cons_append]
        rw [show (f + 1) + w.length = (f + w.length) + 1 from by omega]
        rw [goObj] at h ⊢
        by_cases hws1 : isWsChar c = true
        · rw [if_pos hws1] at h ⊢
          exact obj_ih rest m key ek ec eo m' r w hw h
        · rw [if_neg hws1] at h ⊢
          by_cases hcl : ((m.isEmpty || !ek) && !eo && !ec && c = 125) = true
          · rw [if_pos hcl] at h ⊢
            simp only [Option.some.injEq, Except.ok.injEq, Prod.mk.injEq] at h
            obtain ⟨h1, h2⟩ := h
            subst h1; subst h2
            rfl
          · rw [if_neg hcl] at h ⊢
            by_cases hek : ek = true
            · rw [if_pos hek] at h ⊢
              simp only [parseString] at h ⊢
              cases hstr : goStr f rest [] with
              | none => rw [hstr] at h; exact absurd h (by simp)
              | some res =>
                rw [hstr] at h
                cases res with
                | error e => exact absurd h (by simp)
                | ok p =>
                  obtain ⟨s, r1⟩ := p
                  dsimp only at h
                  rw [goStr_ext f rest [] s r1 w w.length hstr]
                  dsimp only
                  exact obj_ih r1 m s false true eo m' r w hw h
            · rw [if_neg hek] at h ⊢
              by_cases hcol : (ec && c = 58) = true
              · rw [if_pos hcol] at h ⊢
                exact obj_ih rest m key ek false true m' r w hw h
              · rw [if_neg hcol] at h ⊢
                by_cases heo : eo = true
                · rw [if_pos heo] at h ⊢
                  cases hpe : peGo f false (c :: rest) none false with
                  | none => rw [hpe] at h; exact absurd h (by simp)
                  | some res =>
                    rw [hpe] at h
                    cases res with
                    | error e => exact absurd h (by simp)
                    | ok p =>
                      obtain ⟨el, r2⟩ := p
                      dsimp only at h
                      cases r2 with
                      | nil =>
                        exfalso
                        cases f with
                        | zero => exact absurd h (by simp [goObj])
                        | succ f' => rw [goObj] at h; exact absurd h (by simp)
                      | cons b r2' =>
                        have hpe' := pe_ih false (c :: rest) none false el (b :: r2') w
                          hw hpe (Or.inr (Or.inr (Or.inl (by simp))))
                        simp only [List.isEmpty_cons] at hpe'
                        rw [List.cons_append] at hpe'
                        rw [hpe']
                        dsimp only
                        exact obj_ih (b :: r2') (objInsert m key (optToVal el)) key ek ec
                          false m' r w hw h
                · rw [if_neg heo] at h ⊢
                  by_cases hcom : c = 44
                  · rw [if_pos hcom] at h ⊢
                    exact obj_ih rest m key true ec eo m' r w hw h
                  · rw [if_neg hcom] at h
                    exact absurd h (by simp)
    · -- parse_array loop
      intro l es ee es' r w hw h
      by_cases hwnil : w = []
      · subst hwnil; simpa using h
      cases l with
      | nil => rw [goArr] at h; exact absurd h (by simp)
      | cons c rest =>
        rw [List.cons_append]
        rw [show (f + 1) + w.length = (f + w.length) + 1 from by omega]
        rw [goArr] at h ⊢
        by_cases hws1 : isWsChar c = true
        · rw [if_pos hws1] at h ⊢
          exact arr_ih rest es ee es' r w hw h
        · rw [if_neg hws1] at h ⊢
          by_cases hcl : ((es.isEmpty || !ee) && c = 93) = true
          · rw [if_pos hcl] at h ⊢
            simp only [Option.some.injEq, Except.ok.injEq, Prod.mk.injEq] at h
            obtain ⟨h1, h2⟩ := h
            subst h1; subst h2
            rfl
          · rw [if_neg hcl] at h ⊢
            by_cases hee : ee = true
            · rw [if_pos hee] at h ⊢
              cases hpe : peGo f false (c :: rest) none false with
              | none => rw [hpe] at h; exact absurd h (by simp)
              | some res =>
                rw [hpe] at h
                cases res with
                | error e => exact absurd h (by simp)
                | ok p =>
                  obtain ⟨el, r2⟩ := p
                  dsimp only at h
                  cases r2 with
                  | nil =>
                    exfalso
                    cases f with
                    | zero => exact absurd h (by simp [goArr])
                    | succ f' => rw [goArr] at h; exact absurd h (by simp)
                  | cons b r2' =>
                    have hpe' := pe_ih false (c :: rest) none false el (b :: r2') w
                      hw hpe (Or.inr (Or.inr (Or.inl (by simp))))
                    simp only [List.isEmpty_cons] at hpe'
                    rw [List.cons_append] at hpe'
                    rw [hpe']
                    dsimp only
                    exact arr_ih (b :: r2') (es ++ [optToVal el]) false es' r w hw h
            · rw [if_neg hee] at h ⊢
              by_cases hcom : c = 44
              · rw [if_pos hcom] at h ⊢
                exact arr_ih rest es true es' r w hw h
              · rw [if_neg hcom] at h
                exact absurd h (by simp)

/-- C6 counterexample: whitespace invariance fails as universally stated:
`parse("1.")` succeeds (with the float `1.0`), but appending a single space
makes the number scanner raise at the whitespace, because the fraction part
is open with no digits yet — `parse("1. ")` is an error, not `.ok`. -/
theorem ws_invariance_counterexample :
    parse (toCodes "1.") = .ok (.float (toCodes "1.")) ∧
    parse (toCodes "1. ") = .error (.unexpectedChar 32) := ⟨rfl, rfl⟩

/-- C6 amended: for every input `s` on which `parse` succeeds with value `v`
and all whitespace-only `w1`, `w2`, if `w2` is empty or `s` does not end with
the character `.`, then `parse (w1 ++ s ++ w2) = .ok v`.  (The side condition
is forced by the counterexample `s = "1."`: `parse "1." = 1.0` but
`parse "1. "` fails; a trailing `.` at end-of-input is accepted via Python
`float("1.")` yet rejected when any character follows.) -/
theorem ws_invariance (s : List Nat) (v : JSONValue) (w1 w2 : List Nat)
    (hw1 : wsOnly w1) (hw2 : wsOnly w2)
    (hdot : w2 = [] ∨ s.getLast? ≠ some 46)
    (h : parse s = .ok v) : parse (w1 ++ s ++ w2) = .ok v := by
  rw [List.append_assoc]
  unfold parse parseElement at h ⊢
  cases hpe : peGo (s.length + 1) true s none false with
  | none => rw [hpe] at h; simp at h
  | some res =>
    rw [hpe] at h
    cases res with
    | error e => simp at h
    | ok p =>
      obtain ⟨o, r⟩ := p
      dsimp only at h
      have hv : optToVal o = v := by simpa using h
      have hcond : (false = true ∨ w2 = [] ∨ r ≠ [] ∨ s.getLast? ≠ some 46) := by
        rcases hdot with hc | hc
        · exact Or.inr (Or.inl hc)
        · exact Or.inr (Or.inr (Or.inr hc))
      have hx := (parsersExt (s.length + 1)).1 true s none false o r w2 hw2 hpe hcond
      have hpre := peGo_ws_skip w1 hw1 (s ++ w2) (s.length + 1 + w2.length) true none false
      rw [show (w1 ++ (s ++ w2)).length + 1 = (s.length + 1 + w2.length) + w1.length from by
        simp [List.length_append]; omega]
      rw [hpre, hx]
      dsimp only
      rw [hv]

/-- Witness for C6's amended theorem on the spec's concrete example. -/
theorem ws_invariance_witness :
    wsOnly (toCodes "  ") ∧ parse (toCodes "123") = .ok (.int 123) ∧
    parse (toCodes "  " ++ toCodes "123" ++ toCodes "  ") = .ok (.int 123) :=
  ⟨by decide, rfl,
   ws_invariance (toCodes "123") (.int 123) (toCodes "  ") (toCodes "  ")
     (by decide) (by decide) (by decide) rfl⟩

/-- C10: `parse_hex(n)` never returns `None`: whenever it returns at all it
returns `Some` of the scanned value, advancing the position by exactly `n`
(so `n` hex digits were available); consequently the `code is None` branch of
`parse_string`'s `\u` handling, which would raise `Invalid unicode escape`,
is unreachable: the string-parsing loop never produces that error. -/
theorem parseHex_never_none :
    (∀ (n : Nat) (l : List Nat) (o : Option Nat) (r : List Nat),
        parseHex n l = .ok (o, r) → o.isSome ∧ r = l.drop n ∧ n ≤ l.length) ∧
    (∀ (f : Nat) (l acc : List Nat),
        goStr f l acc ≠ some (.error .invalidUnicodeEscape)) :=
  ⟨fun n l o r h => hexGo_ok n l [] o r h, goStr_no_iue⟩

/-- Witness for C10 at a concrete input: four hex digits followed by junk. -/
theorem parseHex_never_none_witness :
    (some 65 : Option Nat).isSome ∧ [122] = (toCodes "0041z").drop 4 ∧
      4 ≤ (toCodes "0041z").length :=
  parseHex_never_none.1 4 (toCodes "0041z") (some 65) [122] rfl
